import Mathlib

/-!
Verification of the working-tree core of retrodep (`retrodep/workingtree.go`):
pseudo-version derivation (`PseudoVersion`), semantic tag ordering
(`VersionTags`), import-annotation stripping (`StripImportComment` /
`removeImportComment`) and the diff façade (`Diff`).

The semver library used by the Go code (`github.com/Masterminds/semver`) is not
part of the visible source tree; its parsing, rendering, comparison and
`IncPatch` operations are modelled from the specification's description of
semantic versions (grammar `major.minor.patch` with optional prerelease and
build metadata, optional leading `v`, full precedence comparison with build
metadata ignored for ordering).
-/

deriving instance DecidableEq for Except

namespace Retrodep

/-! ## Ordering infrastructure

Three-way comparisons used by the semantic-version model.  `CmpLawful`
packages the facts needed to show that sorting by such a comparison yields a
weakly ordered list: `eq` coincides with equality, the comparison is
antisymmetric under `Ordering.swap`, and `gt` is transitive.
-/

/-- Three-way comparison of natural numbers. -/
def natCmp (a b : Nat) : Ordering :=
  if a < b then .lt else if a = b then .eq else .gt

/-- Three-way comparison of characters by code point (the same order as Go's
byte-wise string comparison on the ASCII identifiers occurring in semantic
versions). -/
def charCmp (a b : Char) : Ordering := natCmp a.toNat b.toNat

/-- Lexicographic comparison of lists given a comparison on elements; a
proper prefix compares less than the longer list. -/
def listCmp (cmp : α → α → Ordering) : List α → List α → Ordering
  | [], [] => .eq
  | [], _ :: _ => .lt
  | _ :: _, [] => .gt
  | a :: as, b :: bs => (cmp a b).then (listCmp cmp as bs)

/-- A comparison is lawful when `eq` means equality, it is antisymmetric
under `Ordering.swap`, and `gt` is transitive. -/
def CmpLawful (cmp : α → α → Ordering) : Prop :=
  (∀ a b, cmp a b = .eq ↔ a = b) ∧
  (∀ a b, cmp a b = (cmp b a).swap) ∧
  (∀ a b c, cmp a b = .gt → cmp b c = .gt → cmp a c = .gt)

theorem natCmp_lt_iff (a b : Nat) : natCmp a b = .lt ↔ a < b := by
  unfold natCmp
  split
  · simpa
  · split <;> simp <;> omega

theorem natCmp_eq_iff (a b : Nat) : natCmp a b = .eq ↔ a = b := by
  unfold natCmp
  split
  · simp; omega
  · split <;> simp <;> omega

theorem natCmp_gt_iff (a b : Nat) : natCmp a b = .gt ↔ b < a := by
  unfold natCmp
  split
  · simp; omega
  · split <;> simp <;> omega

theorem natCmp_lawful : CmpLawful natCmp := by
  refine ⟨natCmp_eq_iff, ?_, ?_⟩
  · intro a b
    rcases Nat.lt_trichotomy a b with h | h | h
    · rw [(natCmp_lt_iff a b).mpr h, (natCmp_gt_iff b a).mpr h]; rfl
    · rw [(natCmp_eq_iff a b).mpr h, (natCmp_eq_iff b a).mpr h.symm]; rfl
    · rw [(natCmp_gt_iff a b).mpr h, (natCmp_lt_iff b a).mpr h]; rfl
  · intro a b c h1 h2
    rw [natCmp_gt_iff] at h1 h2 ⊢
    omega

theorem charCmp_lawful : CmpLawful charCmp := by
  obtain ⟨he, hs, ht⟩ := natCmp_lawful
  refine ⟨?_, fun a b => hs _ _, fun a b c => ht _ _ _⟩
  intro a b
  unfold charCmp
  rw [he]
  constructor
  · intro h
    exact Char.ext (UInt32.toNat.inj h)
  · intro h; rw [h]

theorem listCmp_eq_iff (cmp : α → α → Ordering)
    (he : ∀ a b, cmp a b = .eq ↔ a = b) (a b : List α) :
    listCmp cmp a b = .eq ↔ a = b := by
  induction a generalizing b with
  | nil => cases b <;> simp [listCmp]
  | cons x xs ih =>
    cases b with
    | nil => simp [listCmp]
    | cons y ys =>
      simp only [listCmp, Ordering.then_eq_eq, he x y, ih ys, List.cons.injEq]

theorem listCmp_lawful (cmp : α → α → Ordering) (h : CmpLawful cmp) :
    CmpLawful (listCmp cmp) := by
  obtain ⟨he, hs, ht⟩ := h
  refine ⟨listCmp_eq_iff cmp he, ?_, ?_⟩
  · intro a
    induction a with
    | nil => intro b; cases b <;> rfl
    | cons x xs ih =>
      intro b
      cases b with
      | nil => rfl
      | cons y ys =>
        simp only [listCmp, Ordering.swap_then, ← hs x y, ← ih ys]
  · intro a
    induction a with
    | nil =>
      intro b c h1 h2
      cases b <;> simp [listCmp] at h1
    | cons x xs ih =>
      intro b c h1 h2
      cases b with
      | nil => cases c <;> simp [listCmp] at h2
      | cons y ys =>
        cases c with
        | nil => rfl
        | cons z zs =>
          simp only [listCmp, Ordering.then_eq_gt] at h1 h2 ⊢
          rcases h1 with h1 | ⟨h1e, h1r⟩
          · rcases h2 with h2 | ⟨h2e, h2r⟩
            · exact Or.inl (ht x y z h1 h2)
            · rw [← (he y z).mp h2e]; exact Or.inl h1
          · rw [(he x y).mp h1e]
            rcases h2 with h2 | ⟨h2e, h2r⟩
            · exact Or.inl h2
            · exact Or.inr ⟨h2e, ih ys zs h1r h2r⟩

theorem cmp_ge_trans {cmp : α → α → Ordering} (h : CmpLawful cmp) {a b c : α}
    (h1 : cmp a b ≠ .lt) (h2 : cmp b c ≠ .lt) : cmp a c ≠ .lt := by
  obtain ⟨he, hs, ht⟩ := h
  cases hab : cmp a b with
  | lt => exact absurd hab h1
  | eq => rw [(he a b).mp hab]; exact h2
  | gt =>
    cases hbc : cmp b c with
    | lt => exact absurd hbc h2
    | eq => rw [← (he b c).mp hbc]; simp [hab]
    | gt => simp [ht a b c hab hbc]

theorem cmp_ge_total {cmp : α → α → Ordering} (h : CmpLawful cmp) (a b : α) :
    cmp a b ≠ .lt ∨ cmp b a ≠ .lt := by
  obtain ⟨he, hs, ht⟩ := h
  cases hab : cmp a b with
  | lt =>
    right
    have hsw := hs b a
    rw [hab] at hsw
    intro hba
    rw [hba] at hsw
    cases hsw
  | eq => left; simp
  | gt => left; simp

/-! ## Semantic versions

Modelled from the spec: the `github.com/Masterminds/semver` library used by
`workingtree.go` is outside the visible source; the definitions below follow
the specification's data model — "SemanticVersion: a parsed form of a Tag
conforming to a semantic-versioning grammar (major.minor.patch, optional
prerelease, optional build metadata)" — together with its comparison rules
("major, then minor, then patch, then prerelease precedence rules, build
metadata ignored for ordering") and the usage visible in `workingtree.go`
(tags such as `v1.1.0` with an optional leading `v` parse; `IncPatch`
increments the patch number; `String()` renders the normalized form without
the `v`; `Prerelease()` is empty exactly when the version has no prerelease
component).
-/

/-- Modelled from the spec: a prerelease (or build) identifier, classified for
precedence comparison. Identifiers consisting only of digits compare
numerically and lower than alphanumeric identifiers; alphanumeric identifiers
compare lexically in ASCII order. -/
inductive PreId where
  | num (n : Nat)
  | str (s : List Char)
deriving DecidableEq

/-- Decimal value of a digit string (most significant digit first). -/
def digitsToNat (acc : Nat) : List Char → Nat
  | [] => acc
  | c :: cs => digitsToNat (acc * 10 + (c.toNat - 48)) cs

/-- Classify a raw prerelease identifier as numeric or alphanumeric. -/
def classify (s : List Char) : PreId :=
  if !s.isEmpty && s.all Char.isDigit then .num (digitsToNat 0 s) else .str s

/-- Precedence comparison of prerelease identifiers: numeric identifiers
compare numerically and are lower than alphanumeric ones, which compare
lexically. -/
def PreId.cmp : PreId → PreId → Ordering
  | .num a, .num b => natCmp a b
  | .num _, .str _ => .lt
  | .str _, .num _ => .gt
  | .str a, .str b => listCmp charCmp a b

/-- Precedence comparison of whole prerelease components (as lists of
classified identifiers). An empty component means the version is a release,
which has higher precedence than any prerelease; between two nonempty
components identifiers are compared left to right, a shorter component that
is a prefix of the longer one having lower precedence. -/
def preCmp : List PreId → List PreId → Ordering
  | [], [] => .eq
  | [], _ :: _ => .gt
  | _ :: _, [] => .lt
  | a :: as, b :: bs => listCmp PreId.cmp (a :: as) (b :: bs)

theorem preIdCmp_lawful : CmpLawful PreId.cmp := by
  obtain ⟨e1, s1, t1⟩ := natCmp_lawful
  obtain ⟨e2, s2, t2⟩ := listCmp_lawful charCmp charCmp_lawful
  refine ⟨?_, ?_, ?_⟩
  · intro a b
    cases a <;> cases b <;> simp only [PreId.cmp] <;> simp [e1, e2]
  · intro a b
    cases a <;> cases b
    · exact s1 _ _
    · rfl
    · rfl
    · exact s2 _ _
  · intro a b c h1 h2
    cases a <;> cases b <;> cases c <;>
      first
        | rfl
        | exact t1 _ _ _ h1 h2
        | exact t2 _ _ _ h1 h2
        | exact Ordering.noConfusion h1
        | exact Ordering.noConfusion h2

theorem preCmp_lawful : CmpLawful preCmp := by
  obtain ⟨le1, ls1, lt1⟩ := listCmp_lawful PreId.cmp preIdCmp_lawful
  refine ⟨?_, ?_, ?_⟩
  · intro a b
    cases a with
    | nil => cases b <;> simp [preCmp]
    | cons x xs =>
      cases b with
      | nil => simp [preCmp]
      | cons y ys => exact le1 _ _
  · intro a b
    cases a with
    | nil => cases b <;> rfl
    | cons x xs =>
      cases b with
      | nil => rfl
      | cons y ys => exact ls1 _ _
  · intro a b c h1 h2
    cases a with
    | nil =>
      cases b with
      | nil => exact absurd h1 (by simp [preCmp])
      | cons y ys =>
        cases c with
        | nil => exact absurd h2 (by simp [preCmp])
        | cons z zs => rfl
    | cons x xs =>
      cases b with
      | nil => exact absurd h1 (by simp [preCmp])
      | cons y ys =>
        cases c with
        | nil => exact absurd h2 (by simp [preCmp])
        | cons z zs => exact lt1 _ _ _ h1 h2

/-- Modelled from the spec: a parsed semantic version. `pre` and `build` hold
the raw dot-separated identifiers (empty list = component absent). -/
structure Version where
  major : Nat
  minor : Nat
  patch : Nat
  pre : List (List Char)
  build : List (List Char)
deriving DecidableEq

/-- Split a character list at every occurrence of `sep` (Go's
`strings.Split`: `n` separators yield `n+1` chunks, possibly empty). -/
def splitSep (sep : Char) : List Char → List (List Char)
  | [] => [[]]
  | c :: cs =>
    if c = sep then [] :: splitSep sep cs
    else
      match splitSep sep cs with
      | [] => [[c]]
      | l :: ls => (c :: l) :: ls

/-- Break a character list at the first occurrence of `sep`; returns the part
before it and, when `sep` occurs, the part after it. -/
def breakAtFirst (sep : Char) : List Char → List Char × Option (List Char)
  | [] => ([], none)
  | c :: cs =>
    if c = sep then ([], some cs)
    else
      let (l, r) := breakAtFirst sep cs
      (c :: l, r)

/-- Character allowed in a prerelease or build identifier: ASCII letters,
digits and hyphen. -/
def isIdentChar (c : Char) : Bool := c.isAlphanum || c = '-'

/-- Parse a numeric version part: nonempty, digits only. -/
def numPart (s : List Char) : Option Nat :=
  if !s.isEmpty && s.all Char.isDigit then some (digitsToNat 0 s) else none

/-- Parse the dotted numeric core: one to three nonempty digit runs, with
missing minor/patch defaulting to zero. -/
def parseNums (l : List (List Char)) : Option (Nat × Nat × Nat) :=
  match l with
  | [a] => (numPart a).map fun x => (x, 0, 0)
  | [a, b] => do pure (← numPart a, ← numPart b, 0)
  | [a, b, c] => do pure (← numPart a, ← numPart b, ← numPart c)
  | _ => none

/-- Parse an optional prerelease or build component: absent yields `[]`;
present, it must split into nonempty identifiers of letters, digits and
hyphens. -/
def parseIds : Option (List Char) → Option (List (List Char))
  | none => some []
  | some s =>
    let parts := splitSep '.' s
    if parts.all (fun p => !p.isEmpty && p.all isIdentChar) then some parts
    else none

/-- Modelled from the spec: parse a tag as a semantic version. An optional
leading `v` is allowed (the working tree's version tags are spelled like
`v1.1.0`), the numeric core has one to three parts, and optional
`-prerelease` and `+build` components follow; anything else fails to
parse. -/
def NewVersion (s : String) : Option Version :=
  let cs :=
    match s.data with
    | 'v' :: rest => rest
    | cs => cs
  let (beforeBuild, buildRaw) := breakAtFirst '+' cs
  let (numsRaw, preRaw) := breakAtFirst '-' beforeBuild
  do
    let (major, minor, patch) ← parseNums (splitSep '.' numsRaw)
    let pre ← parseIds preRaw
    let build ← parseIds buildRaw
    pure ⟨major, minor, patch, pre, build⟩

/-- Join identifiers with dots. -/
def joinDot : List (List Char) → List Char
  | [] => []
  | [x] => x
  | x :: xs => x ++ '.' :: joinDot xs

/-- Modelled from the spec: the normalized string form of a version
(`String()` in the library) — `major.minor.patch`, then `-pre` when a
prerelease component is present and `+build` when build metadata is
present; no `v` is included. -/
def Version.render (v : Version) : String :=
  toString v.major ++ "." ++ toString v.minor ++ "." ++ toString v.patch ++
    (if v.pre.isEmpty then "" else "-" ++ String.mk (joinDot v.pre)) ++
    (if v.build.isEmpty then "" else "+" ++ String.mk (joinDot v.build))

/-- Modelled from the spec: `IncPatch` on a version without a prerelease
component increments the patch number (and carries no prerelease or build
metadata). -/
def Version.IncPatch (v : Version) : Version :=
  ⟨v.major, v.minor, v.patch + 1, [], []⟩

/-- The comparison key of a version: build metadata is ignored and prerelease
identifiers are classified for precedence. -/
def vkey (v : Version) : Nat × Nat × Nat × List PreId :=
  (v.major, v.minor, v.patch, v.pre.map classify)

/-- Lexicographic product comparison. -/
def prodCmp (f : α → α → Ordering) (g : β → β → Ordering) (p q : α × β) :
    Ordering :=
  (f p.1 q.1).then (g p.2 q.2)

theorem prodCmp_lawful (f : α → α → Ordering) (g : β → β → Ordering)
    (hf : CmpLawful f) (hg : CmpLawful g) : CmpLawful (prodCmp f g) := by
  obtain ⟨fe, fs, ft⟩ := hf
  obtain ⟨ge, gs, gt'⟩ := hg
  refine ⟨?_, ?_, ?_⟩
  · intro a b
    simp [prodCmp, Ordering.then_eq_eq, fe, ge, Prod.ext_iff]
  · intro a b
    simp only [prodCmp, Ordering.swap_then, ← fs, ← gs]
  · intro a b c h1 h2
    simp only [prodCmp, Ordering.then_eq_gt] at h1 h2 ⊢
    rcases h1 with h1 | ⟨h1e, h1r⟩
    · rcases h2 with h2 | ⟨h2e, h2r⟩
      · exact Or.inl (ft _ _ _ h1 h2)
      · rw [← (fe _ _).mp h2e]; exact Or.inl h1
    · rw [(fe _ _).mp h1e]
      rcases h2 with h2 | ⟨h2e, h2r⟩
      · exact Or.inl h2
      · exact Or.inr ⟨h2e, gt' _ _ _ h1r h2r⟩

/-- Modelled from the spec: full semantic-version precedence — major, then
minor, then patch, then prerelease rules; build metadata ignored. -/
def semverCmp (a b : Version) : Ordering :=
  prodCmp natCmp (prodCmp natCmp (prodCmp natCmp preCmp)) (vkey a) (vkey b)

theorem vkCmp_lawful :
    CmpLawful (prodCmp natCmp (prodCmp natCmp (prodCmp natCmp preCmp))) :=
  prodCmp_lawful _ _ natCmp_lawful
    (prodCmp_lawful _ _ natCmp_lawful
      (prodCmp_lawful _ _ natCmp_lawful preCmp_lawful))

/-! ## Pseudo-version derivation

Embedding of `PseudoVersion` from `workingtree.go`.  The `Describable`
interface is a structure of the two query functions; VCS errors are the
sentinel `ErrorVersionNotFound` plus an opaque remainder.  The Go expression
`rev[:12]` panics when the revision has fewer than 12 bytes, which the
embedding represents by returning `none`.
-/

/-- Error returned by `Describable` queries: the sentinel
`ErrorVersionNotFound` (no reachable tag), or any other error. -/
inductive VCSError where
  | versionNotFound
  | other (msg : String)
deriving DecidableEq

/-- A commit timestamp as calendar components (the embedding of Go's
`time.Time` restricted to what the layout `20060102150405` observes). -/
structure GoTime where
  year : Nat
  month : Nat
  day : Nat
  hour : Nat
  minute : Nat
  second : Nat
deriving DecidableEq

/-- Zero-padded two-digit decimal rendering. -/
def pad2 (n : Nat) : String :=
  if n < 10 then "0" ++ toString n else toString n

/-- Zero-padded four-digit decimal rendering. -/
def pad4 (n : Nat) : String :=
  if n < 10 then "000" ++ toString n
  else if n < 100 then "00" ++ toString n
  else if n < 1000 then "0" ++ toString n
  else toString n

/-- Go's `t.Format("20060102150405")`: four-digit year then two-digit month,
day, hour, minute and second, concatenated with no separators. -/
def GoTime.format14 (t : GoTime) : String :=
  pad4 t.year ++ pad2 t.month ++ pad2 t.day ++
    pad2 t.hour ++ pad2 t.minute ++ pad2 t.second

/-- The `Describable` interface of `workingtree.go`: the two methods needed
to create a pseudo-version from a revision. -/
structure Describable where
  ReachableTag : String → Except VCSError String
  TimeFromRevision : String → Except VCSError GoTime

/-- Construction of the final pseudo-version string, mirroring the tail of
`PseudoVersion`: query the commit time (propagating failure), format it, and
append `-` plus the first 12 characters of the revision.  `none` models the
run-time panic of the Go slice `rev[:12]` on a revision shorter than 12
characters. -/
def pseudoFinish (d : Describable) (rev version sfx : String) :
    Option (Except VCSError String) :=
  match d.TimeFromRevision rev with
  | .error e => some (.error e)
  | .ok t =>
    if rev.length < 12 then none
    else some (.ok (version ++ sfx ++ t.format14 ++ "-" ++ rev.take 12))

/-- `PseudoVersion` from `workingtree.go`: derive a semantic-like comparable
version for a revision from its reachable tag (base `v0.0.0` and suffix
`-0.` when no tag is reachable; the raw tag and suffix `-1.` when the tag is
not a semantic version; the patch-incremented version and suffix `-0.` for a
semantic tag without prerelease; the unmodified version and suffix `.0.` for
a semantic tag with a prerelease), followed by the commit timestamp and the
first 12 characters of the revision. -/
def PseudoVersion (d : Describable) (rev : String) :
    Option (Except VCSError String) :=
  match d.ReachableTag rev with
  | .error .versionNotFound => pseudoFinish d rev "v0.0.0" "-0."
  | .error e => some (.error e)
  | .ok reachable =>
    match NewVersion reachable with
    | none => pseudoFinish d rev reachable "-1."
    | some ver =>
      if ver.pre.isEmpty then
        pseudoFinish d rev ("v" ++ ver.IncPatch.render) "-0."
      else
        pseudoFinish d rev ("v" ++ ver.render) ".0."

/-! ## Version tags

Embedding of `VersionTags` from `workingtree.go`.  The backend's tag listing
is the input list; tags that fail to parse are discarded, the parsed
versions are sorted in descending precedence order and the original
spellings are returned.  Go's `sort.Sort` leaves the relative order of
equal-precedence versions unspecified; the embedding uses a stable insertion
sort, one admissible refinement of that behaviour.
-/

/-- Relation used to sort tags: the first parsed version does not precede
the second (descending order). -/
def tagGe (p q : String × Version) : Prop :=
  semverCmp p.2 q.2 ≠ Ordering.lt

instance : DecidableRel tagGe := fun p q =>
  inferInstanceAs (Decidable (semverCmp p.2 q.2 ≠ Ordering.lt))

/-- `VersionTags` from `workingtree.go`: keep the tags that parse as
semantic versions, sort them by descending parsed-version precedence, and
return their original spellings. -/
def VersionTags (tags : List String) : List String :=
  let parsed := tags.filterMap fun t => (NewVersion t).map fun v => (t, v)
  (parsed.insertionSort tagGe).map Prod.fst

/-- Comparison of two tags by the precedence of their parsed versions
(tags that do not parse sort below ones that do; two unparseable tags
compare equal).  Used to state ordering properties of `VersionTags`
output. -/
def tagCmp (a b : String) : Ordering :=
  match NewVersion a, NewVersion b with
  | some va, some vb => semverCmp va vb
  | some _, none => .gt
  | none, some _ => .lt
  | none, none => .eq

/-! ## Import-annotation stripping

Embedding of `removeImportComment` and `StripImportComment` from
`workingtree.go`.  `removeImportComment` applies the anchored regular
expression

`^(package\s+\w+)\s+(?://\s*import\s+(?:"[^"]+"|<backtick-quoted>)\s*$|/\*\s*import\s+(?:"[^"]+"|<backtick-quoted>)\s*\*/)(.*)`

to a line (with its trailing newline removed) and, on a match, keeps the
captured package clause plus the text after the closing block-comment
marker.  The pattern is deterministic (each greedy repetition is followed by
a character its class excludes), so it is embedded as a left-to-right
functional parser over the line's characters.  `StripImportComment` reads a
`.go` file line by line (each line keeping its trailing `'\n'` if present),
rewrites each line, re-appends a newline to every emitted line, and reports
whether anything changed.
-/

/-- Go's `\s` character class: space, tab, newline, form feed and carriage
return. -/
def goSpace (c : Char) : Bool :=
  c = ' ' || c = '\t' || c = '\n' || c = '\x0c' || c = '\r'

/-- Go's `\w` character class: ASCII letters, digits and underscore. -/
def goWord (c : Char) : Bool := c.isAlphanum || c = '_'

/-- Consume an exact literal from the front of the input, returning the
remainder on success. -/
def dropLit : List Char → List Char → Option (List Char)
  | [], rest => some rest
  | _ :: _, [] => none
  | p :: ps, c :: cs => if c = p then dropLit ps cs else none

/-- The backquote character delimiting Go raw string literals. -/
def backq : Char := Char.ofNat 96

/-- Greedy span: the longest initial run satisfying `p`, and the rest.
This is the meaning of the greedy repetitions (`\s*`, `\s+`, `\w+`,
`[^"]+`) in the anchored pattern, each of which is followed by a character
its class excludes and is therefore deterministic. -/
def spanP (p : Char → Bool) : List Char → List Char × List Char
  | [] => ([], [])
  | c :: cs =>
    if p c then
      let (l, r) := spanP p cs
      (c :: l, r)
    else ([], c :: cs)

/-- Consume a quoted import path — `"[^"]+"` or its backquoted analogue —
returning the remainder on success. -/
def quotedSpan : List Char → Option (List Char)
  | [] => none
  | q :: rest =>
    if q = '"' || q = backq then
      let (content, rest2) := spanP (fun c => c ≠ q) rest
      if content.isEmpty then none
      else
        match rest2 with
        | q2 :: rest3 => if q2 = q then some rest3 else none
        | [] => none
    else none

/-- Consume `\s*import\s+` followed by a quoted path, returning the
remainder on success. -/
def importSpan (cs : List Char) : Option (List Char) :=
  let r1 := (spanP goSpace cs).2
  match dropLit "import".data r1 with
  | none => none
  | some r2 =>
    let (ws, r3) := spanP goSpace r2
    if ws.isEmpty then none else quotedSpan r3

/-- Does the body of a `//` comment consist solely of an import
annotation (`\s*import\s+<quoted>\s*$`)? -/
def lineCommentImport (cs : List Char) : Bool :=
  match importSpan cs with
  | none => false
  | some rest => rest.all goSpace

/-- Match the body of a `/* ... */` comment holding solely an import
annotation; on success return the text after the closing `*/`. -/
def blockCommentImport (cs : List Char) : Option (List Char) :=
  match importSpan cs with
  | none => none
  | some rest => dropLit "*/".data (spanP goSpace rest).2

/-- `removeImportComment` from `workingtree.go`: on a line whose package
clause is followed only by an import annotation comment, return the package
clause plus any text after a closing block-comment marker; on any other line
return `none`. -/
def removeImportComment (line : List Char) : Option (List Char) :=
  match dropLit "package".data line with
  | none => none
  | some r0 =>
    let (ws1, r1) := spanP goSpace r0
    if ws1.isEmpty then none
    else
      let (ident, r2) := spanP goWord r1
      if ident.isEmpty then none
      else
        let (ws2, r3) := spanP goSpace r2
        if ws2.isEmpty then none
        else
          let decl := "package".data ++ ws1 ++ ident
          match r3 with
          | '/' :: '/' :: r4 =>
            if lineCommentImport r4 then some decl else none
          | '/' :: '*' :: r4 =>
            (blockCommentImport r4).map fun trailing => decl ++ trailing
          | _ => none

/-- Split a character sequence into the lines delivered by
`bufio.Reader.ReadBytes('\n')`: each line includes its terminating newline,
and a final unterminated line is delivered without one (an empty read at end
of file yields no line). -/
def readLines : List Char → List (List Char)
  | [] => []
  | c :: cs =>
    if c = '\n' then [c] :: readLines cs
    else
      match readLines cs with
      | [] => [[c]]
      | l :: ls => (c :: l) :: ls

/-- Per-line step of `StripImportComment`'s loop: trim the trailing newline
(its absence itself is a change), apply `removeImportComment` (a rewrite is
a change), and emit the resulting line with a newline appended. -/
def processLine (line : List Char) : Bool × List Char :=
  let hadNl : Bool := line.getLast? = some '\n'
  let nonl := if hadNl then line.dropLast else line
  match removeImportComment nonl with
  | some r => (true, r ++ ['\n'])
  | none => (!hadNl, nonl ++ ['\n'])

/-- The line-processing loop of `StripImportComment` over the file content:
returns whether any line changed together with the emitted lines (the bytes
written to `w` are their concatenation). -/
def stripLoop (content : List Char) : Bool × List (List Char) :=
  let rs := (readLines content).map processLine
  (rs.any Prod.fst, rs.map Prod.snd)

/-- `StripImportComment` from `workingtree.go`, as a function of the file's
path and content: files without the `.go` extension are reported unchanged
with nothing written; otherwise the content is processed line by line. -/
def StripImportComment (path : String) (content : List Char) :
    Bool × List (List Char) :=
  if ['.', 'g', 'o'].isSuffixOf path.data then stripLoop content
  else (false, [])

/-! ## Diff façade

Embedding of `Diff` from `workingtree.go`.  The external `diff -u` process
is a capability supplying, for a pair of file arguments, the text it streams
to the output sink and its exit result.  In Go, `p.Run()` returns `nil`
exactly when the process exits with status 0 and an `*exec.ExitError`
otherwise; `Diff` then returns `(true, nil)` when the process exited
normally with status 1, and `(false, err)` in every other case.
-/

/-- Completion of a spawned process: normal exit with a status code, or
abnormal termination (e.g. by a signal, for which `Exited()` is false). -/
inductive ExitResult where
  | exited (code : Nat)
  | signaled
deriving DecidableEq

/-- The error carried by a non-nil result of running the diff tool. -/
inductive DiffError where
  | exitError (res : ExitResult)
deriving DecidableEq

/-- The external diff capability: the text written to the output sink and
the exit result, as functions of the two file arguments. -/
structure DiffTool where
  output : String → String → String
  exit : String → String → ExitResult

/-- Path resolution in `Diff`: an empty path becomes `/dev/null`, a relative
path is joined to the working-tree directory (`filepath.Join`, written here
as a plain separator join), an absolute path is used as is. -/
def resolveDiffPath (dir path : String) : String :=
  if path = "" then "/dev/null"
  else if path.data.head? ≠ some '/' then dir ++ "/" ++ path
  else path

/-- `Diff` from `workingtree.go`: run `diff -u` on the resolved path and the
local file, and interpret the completion status — 0 means no differences,
a normal exit with status 1 means differences were found (not an error),
anything else is returned as an error with `changes = false`.  The first
component is the text streamed to the caller-supplied sink, produced in
every case. -/
def Diff (tool : DiffTool) (dir path localFile : String) :
    String × Bool × Option DiffError :=
  let p := resolveDiffPath dir path
  let out := tool.output p localFile
  let err : Option DiffError :=
    match tool.exit p localFile with
    | .exited 0 => none
    | r => some (.exitError r)
  match err with
  | some (.exitError (.exited 1)) => (out, true, none)
  | _ => (out, false, err)

/-! ## Pseudo-version theorems -/

theorem pseudoFinish_ok (d : Describable) (rev version sfx : String)
    (t : GoTime) (ht : d.TimeFromRevision rev = .ok t)
    (hlen : 12 ≤ rev.length) :
    pseudoFinish d rev version sfx =
      some (.ok (version ++ sfx ++ t.format14 ++ "-" ++ rev.take 12)) := by
  unfold pseudoFinish
  rw [ht]
  simp [Nat.not_lt.mpr hlen]

/-- C1: for a revision whose reachable tag parses as a semantic version with
no prerelease component, `PseudoVersion` returns the parsed version with its
patch number incremented, then the suffix `-0.`, the 14-digit commit
timestamp, `-`, and the first 12 characters of the revision. -/
theorem PseudoVersion_semver_tag_no_prerelease (d : Describable)
    (rev tag : String) (v : Version) (t : GoTime)
    (hr : d.ReachableTag rev = .ok tag)
    (hp : NewVersion tag = some v)
    (hpre : v.pre = [])
    (ht : d.TimeFromRevision rev = .ok t)
    (hlen : 12 ≤ rev.length) :
    PseudoVersion d rev =
      some (.ok ("v" ++ v.IncPatch.render ++ "-0." ++ t.format14 ++ "-" ++
        rev.take 12)) := by
  unfold PseudoVersion
  rw [hr]
  simp only [hp, hpre, List.isEmpty_nil, if_true]
  exact pseudoFinish_ok d rev _ _ t ht hlen

/-- Shared stand-in backend for the pseudo-version witnesses: every revision
has the given reachable tag and commit time 2019-01-02T03:04:05Z. -/
def tagDescribable (tag : String) : Describable :=
  ⟨fun _ => .ok tag, fun _ => .ok ⟨2019, 1, 2, 3, 4, 5⟩⟩

theorem PseudoVersion_semver_tag_no_prerelease_witness :
    PseudoVersion (tagDescribable "v1.2.3") "abcdef012345" =
      some (.ok "v1.2.4-0.20190102030405-abcdef012345") := by
  rw [PseudoVersion_semver_tag_no_prerelease (tagDescribable "v1.2.3")
    "abcdef012345" "v1.2.3" ⟨1, 2, 3, [], []⟩ ⟨2019, 1, 2, 3, 4, 5⟩
    rfl (by decide) rfl rfl (by decide)]
  decide

/-- C2: for a revision whose reachable tag parses as a semantic version with
a prerelease component, `PseudoVersion` leaves the version unmodified and
uses the suffix `.0.`. -/
theorem PseudoVersion_semver_tag_prerelease (d : Describable)
    (rev tag : String) (v : Version) (t : GoTime)
    (hr : d.ReachableTag rev = .ok tag)
    (hp : NewVersion tag = some v)
    (hpre : v.pre ≠ [])
    (ht : d.TimeFromRevision rev = .ok t)
    (hlen : 12 ≤ rev.length) :
    PseudoVersion d rev =
      some (.ok ("v" ++ v.render ++ ".0." ++ t.format14 ++ "-" ++
        rev.take 12)) := by
  unfold PseudoVersion
  rw [hr]
  obtain ⟨x, xs, hx⟩ := List.exists_cons_of_ne_nil hpre
  simp only [hp, hx, List.isEmpty_cons, if_false, Bool.false_eq_true]
  exact pseudoFinish_ok d rev _ _ t ht hlen

theorem PseudoVersion_semver_tag_prerelease_witness :
    PseudoVersion (tagDescribable "v1.2.3-beta") "abcdef012345" =
      some (.ok "v1.2.3-beta.0.20190102030405-abcdef012345") := by
  rw [PseudoVersion_semver_tag_prerelease (tagDescribable "v1.2.3-beta")
    "abcdef012345" "v1.2.3-beta" ⟨1, 2, 3, [['b', 'e', 't', 'a']], []⟩
    ⟨2019, 1, 2, 3, 4, 5⟩ rfl (by decide) (by decide) rfl (by decide)]
  decide

/-- C3: when `ReachableTag` reports `ErrorVersionNotFound`, `PseudoVersion`
treats it as a normal case: base version `v0.0.0`, suffix `-0.`, and no
error. -/
theorem PseudoVersion_no_reachable_tag (d : Describable) (rev : String)
    (t : GoTime)
    (hr : d.ReachableTag rev = .error .versionNotFound)
    (ht : d.TimeFromRevision rev = .ok t)
    (hlen : 12 ≤ rev.length) :
    PseudoVersion d rev =
      some (.ok ("v0.0.0" ++ "-0." ++ t.format14 ++ "-" ++ rev.take 12)) := by
  unfold PseudoVersion
  rw [hr]
  exact pseudoFinish_ok d rev _ _ t ht hlen

/-- Stand-in backend with no reachable tag for any revision and commit time
2019-01-02T03:04:05Z. -/
def noTagDescribable : Describable :=
  ⟨fun _ => .error .versionNotFound, fun _ => .ok ⟨2019, 1, 2, 3, 4, 5⟩⟩

theorem PseudoVersion_no_reachable_tag_witness :
    PseudoVersion noTagDescribable "abcdef012345" =
      some (.ok "v0.0.0-0.20190102030405-abcdef012345") := by
  rw [PseudoVersion_no_reachable_tag noTagDescribable "abcdef012345"
    ⟨2019, 1, 2, 3, 4, 5⟩ rfl rfl (by decide)]
  decide

/-- C4: for a revision whose reachable tag does not parse as a semantic
version, `PseudoVersion` uses the raw tag text as the base version and the
suffix `-1.`. -/
theorem PseudoVersion_unparseable_tag (d : Describable) (rev tag : String)
    (t : GoTime)
    (hr : d.ReachableTag rev = .ok tag)
    (hp : NewVersion tag = none)
    (ht : d.TimeFromRevision rev = .ok t)
    (hlen : 12 ≤ rev.length) :
    PseudoVersion d rev =
      some (.ok (tag ++ "-1." ++ t.format14 ++ "-" ++ rev.take 12)) := by
  unfold PseudoVersion
  rw [hr]
  simp only [hp]
  exact pseudoFinish_ok d rev _ _ t ht hlen

theorem PseudoVersion_unparseable_tag_witness :
    PseudoVersion (tagDescribable "legacy-tag-1") "abcdef012345" =
      some (.ok "legacy-tag-1-1.20190102030405-abcdef012345") := by
  rw [PseudoVersion_unparseable_tag (tagDescribable "legacy-tag-1")
    "abcdef012345" "legacy-tag-1" ⟨2019, 1, 2, 3, 4, 5⟩
    rfl (by decide) rfl (by decide)]
  decide

theorem pseudoFinish_isSome (d : Describable) (rev version sfx : String)
    (hlen : 12 ≤ rev.length) :
    (pseudoFinish d rev version sfx).isSome = true := by
  unfold pseudoFinish
  cases d.TimeFromRevision rev
  · rfl
  · simp [Nat.not_lt.mpr hlen]

theorem pseudoFinish_panic (d : Describable) (rev version sfx : String)
    (t : GoTime) (ht : d.TimeFromRevision rev = .ok t)
    (hlen : rev.length < 12) :
    pseudoFinish d rev version sfx = none := by
  unfold pseudoFinish
  rw [ht]
  simp [hlen]

/-- C9: `PseudoVersion` slices the first 12 characters of the revision
whenever the reachable-tag query succeeds or reports version-not-found and
the commit-time query succeeds; on a shorter revision that slice is out of
range (the Go code panics), so the function is total exactly under the
precondition that the revision has at least 12 characters, and under that
precondition the out-of-range branch is unreachable. -/
theorem PseudoVersion_twelve_char_precondition (d : Describable)
    (rev : String) :
    (12 ≤ rev.length → (PseudoVersion d rev).isSome = true) ∧
    (rev.length < 12 →
      ∀ t, d.TimeFromRevision rev = .ok t →
        (d.ReachableTag rev = .error .versionNotFound ∨
          ∃ tag, d.ReachableTag rev = .ok tag) →
        PseudoVersion d rev = none) := by
  constructor
  · intro hlen
    unfold PseudoVersion
    cases hr : d.ReachableTag rev with
    | error e =>
      cases e with
      | versionNotFound => simpa using pseudoFinish_isSome d rev "v0.0.0" "-0." hlen
      | other m => simp
    | ok reachable =>
      cases hnv : NewVersion reachable with
      | none => simpa [hnv] using pseudoFinish_isSome d rev reachable "-1." hlen
      | some ver =>
        cases hpre : ver.pre.isEmpty
        · simpa [hnv, hpre] using
            pseudoFinish_isSome d rev ("v" ++ ver.render) ".0." hlen
        · simpa [hnv, hpre] using
            pseudoFinish_isSome d rev ("v" ++ ver.IncPatch.render) "-0." hlen
  · intro hlen t ht hok
    unfold PseudoVersion
    rcases hok with hr | ⟨tag, hr⟩ <;> rw [hr]
    · simpa using pseudoFinish_panic d rev "v0.0.0" "-0." t ht hlen
    · cases hnv : NewVersion tag with
      | none => simpa [hnv] using pseudoFinish_panic d rev tag "-1." t ht hlen
      | some ver =>
        cases hpre : ver.pre.isEmpty
        · simpa [hnv, hpre] using
            pseudoFinish_panic d rev ("v" ++ ver.render) ".0." t ht hlen
        · simpa [hnv, hpre] using
            pseudoFinish_panic d rev ("v" ++ ver.IncPatch.render) "-0." t ht hlen

theorem PseudoVersion_twelve_char_precondition_witness :
    (PseudoVersion (tagDescribable "v1.2.3") "abc").isSome = false ∧
    (PseudoVersion (tagDescribable "v1.2.3") "abcdef012345").isSome = true :=
  ⟨by
    rw [(PseudoVersion_twelve_char_precondition (tagDescribable "v1.2.3")
      "abc").2 (by decide) ⟨2019, 1, 2, 3, 4, 5⟩ rfl (Or.inr ⟨"v1.2.3", rfl⟩)]
    rfl,
   (PseudoVersion_twelve_char_precondition (tagDescribable "v1.2.3")
      "abcdef012345").1 (by decide)⟩

/-- C10: for a reachable tag that parses as a semantic version, the base of
the pseudo-version is the letter `v` followed by the normalized string form
of the (possibly patch-incremented) parsed version — a function of the
parsed version only, independent of the tag's original spelling. -/
theorem PseudoVersion_base_normalized (d : Describable) (rev tag : String)
    (v : Version) (t : GoTime)
    (hr : d.ReachableTag rev = .ok tag)
    (hp : NewVersion tag = some v)
    (ht : d.TimeFromRevision rev = .ok t)
    (hlen : 12 ≤ rev.length) :
    PseudoVersion d rev =
      some (.ok (("v" ++ (if v.pre.isEmpty then v.IncPatch.render
          else v.render)) ++
        (if v.pre.isEmpty then "-0." else ".0.") ++ t.format14 ++ "-" ++
        rev.take 12)) := by
  unfold PseudoVersion
  rw [hr]
  simp only [hp]
  cases v.pre.isEmpty <;>
    simp only [if_true, if_false, Bool.false_eq_true] <;>
    exact pseudoFinish_ok d rev _ _ t ht hlen

theorem PseudoVersion_base_normalized_witness :
    PseudoVersion (tagDescribable "1.2.3") "abcdef012345" =
      some (.ok "v1.2.4-0.20190102030405-abcdef012345") ∧
    PseudoVersion (tagDescribable "v1.2.3") "abcdef012345" =
      some (.ok "v1.2.4-0.20190102030405-abcdef012345") :=
  ⟨by
    rw [PseudoVersion_base_normalized (tagDescribable "1.2.3")
      "abcdef012345" "1.2.3" ⟨1, 2, 3, [], []⟩ ⟨2019, 1, 2, 3, 4, 5⟩
      rfl (by decide) rfl (by decide)]
    decide,
   by
    rw [PseudoVersion_base_normalized (tagDescribable "v1.2.3")
      "abcdef012345" "v1.2.3" ⟨1, 2, 3, [], []⟩ ⟨2019, 1, 2, 3, 4, 5⟩
      rfl (by decide) rfl (by decide)]
    decide⟩

/-! ## Version-tag theorems -/

theorem tagsMapFst (tags : List String) :
    (tags.filterMap fun t => (NewVersion t).map fun v => (t, v)).map Prod.fst
      = tags.filter fun t => (NewVersion t).isSome := by
  induction tags with
  | nil => rfl
  | cons t ts ih =>
    cases h : NewVersion t <;>
      simp [List.filterMap_cons, List.filter_cons, h, ih]

theorem parsedInv (tags : List String) (p : String × Version)
    (hp : p ∈ tags.filterMap fun t => (NewVersion t).map fun v => (t, v)) :
    NewVersion p.1 = some p.2 := by
  rcases List.mem_filterMap.mp hp with ⟨t, ht, hmap⟩
  cases h : NewVersion t with
  | none => rw [h] at hmap; cases hmap
  | some v =>
    rw [h] at hmap
    simp only [Option.map_some', Option.some.injEq] at hmap
    rw [← hmap]
    exact h

/-- C5 (counterexample): the output of `VersionTags` is not strictly
descending under full semantic-version comparison — two spellings of the
same version (`v1.2.3` and `1.2.3`) both survive the parse filter and
compare equal, so they cannot be strictly ordered. -/
theorem VersionTags_not_strictly_descending :
    VersionTags ["v1.2.3", "1.2.3"] = ["v1.2.3", "1.2.3"] ∧
    ¬ (VersionTags ["v1.2.3", "1.2.3"]).Pairwise
        (fun a b => tagCmp a b = Ordering.gt) := by
  have heval : VersionTags ["v1.2.3", "1.2.3"] = ["v1.2.3", "1.2.3"] := by
    decide
  refine ⟨heval, ?_⟩
  intro h
  rw [heval] at h
  have h2 := (List.pairwise_cons.mp h).1 "1.2.3" (by simp)
  have h3 : tagCmp "v1.2.3" "1.2.3" = Ordering.eq := by decide
  rw [h3] at h2
  cases h2

/-- C5 (amended): `VersionTags` silently discards tags that do not parse as
semantic versions and returns the original spellings of the remaining tags
(a permutation of them) ordered descending — weakly, not strictly, since
distinct spellings whose parsed versions compare equal may be adjacent — by
full semantic-version comparison; a tag list with no parseable tags yields
an empty result and no error. -/
theorem VersionTags_descending (tags : List String) :
    (VersionTags tags).Pairwise (fun a b => tagCmp a b ≠ Ordering.lt) ∧
    (VersionTags tags).Perm (tags.filter fun t => (NewVersion t).isSome) ∧
    ((∀ t ∈ tags, NewVersion t = none) → VersionTags tags = []) := by
  haveI : IsTotal (String × Version) tagGe :=
    ⟨fun a b => cmp_ge_total vkCmp_lawful (vkey a.2) (vkey b.2)⟩
  haveI : IsTrans (String × Version) tagGe :=
    ⟨fun a b c h1 h2 => cmp_ge_trans vkCmp_lawful h1 h2⟩
  refine ⟨?_, ?_, ?_⟩
  · have hsorted := List.sorted_insertionSort tagGe
      (tags.filterMap fun t => (NewVersion t).map fun v => (t, v))
    have hsorted2 : (List.insertionSort tagGe
        (tags.filterMap fun t => (NewVersion t).map fun v => (t, v))).Pairwise
          (fun p q => tagCmp p.1 q.1 ≠ Ordering.lt) := by
      refine List.Pairwise.imp_of_mem ?_ hsorted
      intro a b ha hb hge
      have hva := parsedInv tags a ((List.mem_insertionSort tagGe).mp ha)
      have hvb := parsedInv tags b ((List.mem_insertionSort tagGe).mp hb)
      unfold tagCmp
      rw [hva, hvb]
      exact hge
    exact List.pairwise_map.mpr hsorted2
  · have hperm := (List.perm_insertionSort tagGe
      (tags.filterMap fun t => (NewVersion t).map fun v => (t, v))).map
        Prod.fst
    rw [tagsMapFst] at hperm
    exact hperm
  · intro hall
    have hfil : tags.filter (fun t => (NewVersion t).isSome) = [] :=
      List.filter_eq_nil_iff.mpr fun a ha => by simp [hall a ha]
    have hperm := (List.perm_insertionSort tagGe
      (tags.filterMap fun t => (NewVersion t).map fun v => (t, v))).map
        Prod.fst
    rw [tagsMapFst, hfil] at hperm
    exact hperm.eq_nil

theorem VersionTags_descending_witness :
    VersionTags ["not-a-version"] = [] :=
  (VersionTags_descending ["not-a-version"]).2.2 (by
    intro t ht
    rw [List.mem_singleton.mp ht]
    decide)

/-! ## Diff theorems -/

/-- C8: `Diff` interprets the external tool's completion as — status 0:
`differs = false` and no error; a normal exit with status 1:
`differs = true` and no error; any other completion (another exit status, or
abnormal termination): an error is returned; and in every case the first
component is the text the tool streams to the caller-supplied sink. -/
theorem Diff_exit_status (tool : DiffTool) (dir path localFile : String) :
    (Diff tool dir path localFile).1 =
      tool.output (resolveDiffPath dir path) localFile ∧
    (tool.exit (resolveDiffPath dir path) localFile = .exited 0 →
      Diff tool dir path localFile =
        (tool.output (resolveDiffPath dir path) localFile, false, none)) ∧
    (tool.exit (resolveDiffPath dir path) localFile = .exited 1 →
      Diff tool dir path localFile =
        (tool.output (resolveDiffPath dir path) localFile, true, none)) ∧
    (∀ c, c ≠ 0 → c ≠ 1 →
      tool.exit (resolveDiffPath dir path) localFile = .exited c →
      Diff tool dir path localFile =
        (tool.output (resolveDiffPath dir path) localFile, false,
          some (.exitError (.exited c)))) ∧
    (tool.exit (resolveDiffPath dir path) localFile = .signaled →
      Diff tool dir path localFile =
        (tool.output (resolveDiffPath dir path) localFile, false,
          some (.exitError .signaled))) := by
  refine ⟨?_, ?_, ?_, ?_, ?_⟩
  · cases hexit : tool.exit (resolveDiffPath dir path) localFile with
    | exited c => rcases c with _ | _ | c <;> simp [Diff, hexit]
    | signaled => simp [Diff, hexit]
  · intro h; simp [Diff, h]
  · intro h; simp [Diff, h]
  · intro c h0 h1 hexit
    rcases c with _ | _ | c
    · exact absurd rfl h0
    · exact absurd rfl h1
    · simp [Diff, hexit]
  · intro h; simp [Diff, h]

/-- Stand-in diff tool whose process always exits with status 2 (trouble). -/
def failingDiffTool : DiffTool :=
  ⟨fun _ _ => "--- a\n+++ b\n", fun _ _ => .exited 2⟩

theorem Diff_exit_status_witness :
    Diff failingDiffTool "/work" "pkg/main.go" "local/main.go" =
      ("--- a\n+++ b\n", false, some (.exitError (.exited 2))) :=
  (Diff_exit_status failingDiffTool "/work" "pkg/main.go"
    "local/main.go").2.2.2.1 2 (by decide) (by decide) rfl

/-! ## Import-stripping theorems -/

theorem readLines_ne_nil (c : Char) (cs : List Char) :
    readLines (c :: cs) ≠ [] := by
  rw [readLines]
  by_cases hc : c = '\n'
  · rw [if_pos hc]; simp
  · rw [if_neg hc]
    cases readLines cs <;> simp

theorem readLines_chunk_ne_nil :
    ∀ (cs : List Char), ∀ l ∈ readLines cs, l ≠ [] := by
  intro cs
  induction cs with
  | nil => intro l hl; simp [readLines] at hl
  | cons c cs ih =>
    intro l hl
    by_cases hc : c = '\n'
    · rw [readLines, if_pos hc] at hl
      rcases List.mem_cons.mp hl with hl | hl
      · subst hl; simp
      · exact ih l hl
    · rw [readLines, if_neg hc] at hl
      cases hrec : readLines cs with
      | nil =>
        rw [hrec] at hl
        rw [List.mem_singleton.mp hl]
        simp
      | cons r rs =>
        rw [hrec] at hl
        rcases List.mem_cons.mp hl with hl | hl
        · subst hl; simp
        · exact ih l (hrec ▸ List.mem_cons_of_mem r hl)

theorem readLines_all_nl :
    ∀ (cs : List Char), cs.getLast? = some '\n' →
      ∀ l ∈ readLines cs, l.getLast? = some '\n' := by
  intro cs
  induction cs with
  | nil => intro _ l hl; simp [readLines] at hl
  | cons c cs ih =>
    intro hlast l hl
    by_cases hc : c = '\n'
    · rw [readLines, if_pos hc] at hl
      rcases List.mem_cons.mp hl with hl | hl
      · subst hl; rw [hc]; rfl
      · cases cs with
        | nil => simp [readLines] at hl
        | cons d ds =>
          exact ih (by rw [← List.getLast?_cons_cons (a := c)]; exact hlast)
            l hl
    · cases cs with
      | nil =>
        simp only [List.getLast?_singleton] at hlast
        exact absurd (Option.some.inj hlast) hc
      | cons d ds =>
        rw [readLines, if_neg hc] at hl
        have hlast2 : (d :: ds).getLast? = some '\n' := by
          rw [← List.getLast?_cons_cons (a := c)]; exact hlast
        cases hrec : readLines (d :: ds) with
        | nil => exact absurd hrec (readLines_ne_nil d ds)
        | cons r rs =>
          rw [hrec] at hl
          rcases List.mem_cons.mp hl with hl | hl
          · have hr : r ≠ [] :=
              readLines_chunk_ne_nil (d :: ds) r (hrec ▸ List.mem_cons_self r rs)
            obtain ⟨x, xs, hx⟩ := List.exists_cons_of_ne_nil hr
            have hrn := ih hlast2 r (hrec ▸ List.mem_cons_self r rs)
            rw [hl, hx, List.getLast?_cons_cons]
            rw [hx] at hrn
            exact hrn
          · exact ih hlast2 l (hrec ▸ List.mem_cons_of_mem r hl)

theorem readLines_exists_last :
    ∀ (cs : List Char), cs ≠ [] →
      ∃ l ∈ readLines cs, l.getLast? = cs.getLast? := by
  intro cs
  induction cs with
  | nil => intro h; exact absurd rfl h
  | cons c cs ih =>
    intro _
    by_cases hc : c = '\n'
    · cases cs with
      | nil => exact ⟨[c], by simp [readLines, hc], rfl⟩
      | cons d ds =>
        obtain ⟨l, hl, hlast⟩ := ih (by simp)
        refine ⟨l, ?_, ?_⟩
        · rw [readLines, if_pos hc]
          exact List.mem_cons_of_mem _ hl
        · rw [hlast, List.getLast?_cons_cons]
    · cases cs with
      | nil => exact ⟨[c], by simp [readLines, hc], rfl⟩
      | cons d ds =>
        obtain ⟨l, hl, hlast⟩ := ih (by simp)
        cases hrec : readLines (d :: ds) with
        | nil => rw [hrec] at hl; cases hl
        | cons r rs =>
          rw [hrec] at hl
          rcases List.mem_cons.mp hl with hl | hl
          · refine ⟨c :: r, ?_, ?_⟩
            · rw [readLines, if_neg hc, hrec]
              exact List.mem_cons_self _ _
            · have hr : r ≠ [] :=
                readLines_chunk_ne_nil (d :: ds) r (hrec ▸ List.mem_cons_self r rs)
              obtain ⟨x, xs, hx⟩ := List.exists_cons_of_ne_nil hr
              rw [hx, List.getLast?_cons_cons, ← hx, ← hl, hlast,
                List.getLast?_cons_cons]
          · refine ⟨l, ?_, ?_⟩
            · rw [readLines, if_neg hc, hrec]
              exact List.mem_cons_of_mem _ hl
            · rw [hlast, List.getLast?_cons_cons]

theorem processLine_snd (x : List Char) :
    (processLine x).2 ≠ [] ∧ (processLine x).2.getLast? = some '\n' := by
  unfold processLine
  by_cases hnl : x.getLast? = some '\n'
  · cases h : removeImportComment x.dropLast <;>
      simp [hnl, h, List.getLast?_concat]
  · cases h : removeImportComment x <;>
      simp [hnl, h, List.getLast?_concat]

theorem processLine_fst_true {x : List Char}
    (h : x.getLast? ≠ some '\n') : (processLine x).1 = true := by
  unfold processLine
  cases hr : removeImportComment x <;> simp [h, hr]

theorem processLine_fst_false {x : List Char}
    (h1 : x.getLast? = some '\n')
    (h2 : removeImportComment x.dropLast = none) :
    (processLine x).1 = false := by
  unfold processLine
  simp [h1, h2]

/-- C7: every line emitted by `StripImportComment` on a `.go` file is
nonempty and ends in a newline; a nonempty file whose final line lacks a
trailing newline is reported as changed even when no line carries an import
annotation; and a file whose content ends in a newline and none of whose
lines carries an import annotation is reported as unchanged. -/
theorem StripImportComment_newlines (path : String) (content : List Char)
    (hgo : (['.', 'g', 'o'].isSuffixOf path.data) = true) :
    (∀ l ∈ (StripImportComment path content).2,
      l ≠ [] ∧ l.getLast? = some '\n') ∧
    (content ≠ [] → content.getLast? ≠ some '\n' →
      (StripImportComment path content).1 = true) ∧
    (content.getLast? = some '\n' →
      (∀ l ∈ readLines content, removeImportComment l.dropLast = none) →
      (StripImportComment path content).1 = false) := by
  unfold StripImportComment
  rw [if_pos hgo]
  refine ⟨?_, ?_, ?_⟩
  · intro l hl
    unfold stripLoop at hl
    simp only [List.map_map, List.mem_map] at hl
    obtain ⟨x, _, hx⟩ := hl
    rw [← hx]
    exact processLine_snd x
  · intro h1 h2
    obtain ⟨l, hl, hlast⟩ := readLines_exists_last content h1
    unfold stripLoop
    simp only [List.any_eq_true]
    exact ⟨processLine l, List.mem_map.mpr ⟨l, hl, rfl⟩,
      processLine_fst_true (hlast ▸ h2)⟩
  · intro hnl hnone
    unfold stripLoop
    simp only [List.any_eq_false]
    intro x hx
    rcases List.mem_map.mp hx with ⟨l, hl, hpl⟩
    rw [← hpl]
    have hf := processLine_fst_false
      (readLines_all_nl content hnl l hl) (hnone l hl)
    simp [hf]

theorem StripImportComment_newlines_witness :
    (StripImportComment "main.go" ("package foo").data).1 = true :=
  (StripImportComment_newlines "main.go" ("package foo").data
    (by decide)).2.1 (by decide) (by decide)

/-! ## Import-annotation pattern lemmas

Correctness of the embedded pattern matcher on decomposed annotation lines:
each greedy character-class run in the pattern is consumed exactly, because
the following character is excluded from the class.
-/

theorem goWord_not_space {c : Char} (h : goWord c = true) : goSpace c = false := by
  cases hs : goSpace c
  · rfl
  · exfalso
    simp only [goSpace, Bool.or_eq_true, decide_eq_true_eq] at hs
    rcases hs with (((h1 | h1) | h1) | h1) | h1 <;> subst h1 <;>
      exact absurd h (by decide)

theorem goSpace_not_word {c : Char} (h : goSpace c = true) : goWord c = false := by
  simp only [goSpace, Bool.or_eq_true, decide_eq_true_eq] at h
  rcases h with (((h1 | h1) | h1) | h1) | h1 <;> subst h1 <;> decide

theorem isEmpty_false_of_ne_nil {l : List Char} (h : l ≠ []) :
    l.isEmpty = false := by
  cases l
  · exact absurd rfl h
  · rfl

theorem dropLit_append (pat rest : List Char) :
    dropLit pat (pat ++ rest) = some rest := by
  induction pat with
  | nil => rfl
  | cons p ps ih => simp [dropLit, ih]

theorem spanP_append (p : Char → Bool) (l r : List Char)
    (hl : ∀ c ∈ l, p c = true)
    (hr : ∀ c, r.head? = some c → p c = false) :
    spanP p (l ++ r) = (l, r) := by
  induction l with
  | nil =>
    cases r with
    | nil => rfl
    | cons c cs =>
      simp only [List.nil_append, spanP, hr c rfl, Bool.false_eq_true,
        if_false]
  | cons c cs ih =>
    simp only [List.cons_append, spanP, hl c (List.mem_cons_self c cs),
      if_true, List.append_eq, ih fun x hx => hl x (List.mem_cons_of_mem c hx)]

theorem quotedSpan_append (q : Char) (content rest : List Char)
    (hq : q = '"' ∨ q = backq)
    (hcon : ∀ c ∈ content, c ≠ q) (hconn : content ≠ []) :
    quotedSpan (q :: (content ++ (q :: rest))) = some rest := by
  have hqq : (q = '"' || q = backq) = true := by
    rcases hq with rfl | rfl <;> decide
  have hspan := spanP_append (fun c => c ≠ q) content (q :: rest)
    (fun c hc => decide_eq_true (hcon c hc))
    (fun c hc => by
      rw [List.head?_cons] at hc
      rw [← Option.some.inj hc]
      simp)
  simp only [quotedSpan, hqq, if_true, hspan,
    isEmpty_false_of_ne_nil hconn, Bool.false_eq_true, if_false]

theorem importSpan_append (ws3 ws4 content rest : List Char) (q : Char)
    (hq : q = '"' ∨ q = backq)
    (hws3 : ∀ c ∈ ws3, goSpace c = true)
    (hws4 : ∀ c ∈ ws4, goSpace c = true) (hws4n : ws4 ≠ [])
    (hcon : ∀ c ∈ content, c ≠ q) (hconn : content ≠ []) :
    importSpan (ws3 ++ ("import".data ++
      (ws4 ++ (q :: (content ++ (q :: rest)))))) = some rest := by
  unfold importSpan
  rw [spanP_append goSpace ws3 _ hws3 (fun c hc => by
    rw [show ("import".data ++
      (ws4 ++ (q :: (content ++ (q :: rest))))).head? = some 'i' from rfl]
      at hc
    rw [← Option.some.inj hc]
    decide)]
  simp only [dropLit_append]
  rw [spanP_append goSpace ws4 (q :: (content ++ (q :: rest))) hws4
    (fun c hc => by
      rw [show (q :: (content ++ (q :: rest))).head? = some q from rfl] at hc
      rw [← Option.some.inj hc]
      rcases hq with rfl | rfl <;> decide)]
  simp only [isEmpty_false_of_ne_nil hws4n, Bool.false_eq_true, if_false]
  exact quotedSpan_append q content rest hq hcon hconn

theorem lineCommentImport_true (ws3 ws4 content ws5 : List Char) (q : Char)
    (hq : q = '"' ∨ q = backq)
    (hws3 : ∀ c ∈ ws3, goSpace c = true)
    (hws4 : ∀ c ∈ ws4, goSpace c = true) (hws4n : ws4 ≠ [])
    (hcon : ∀ c ∈ content, c ≠ q) (hconn : content ≠ [])
    (hws5 : ∀ c ∈ ws5, goSpace c = true) :
    lineCommentImport (ws3 ++ ("import".data ++
      (ws4 ++ (q :: (content ++ (q :: ws5)))))) = true := by
  unfold lineCommentImport
  simp only [importSpan_append ws3 ws4 content ws5 q hq hws3 hws4 hws4n hcon
    hconn]
  exact List.all_eq_true.mpr hws5

theorem blockCommentImport_some (ws3 ws4 content ws5 trailing : List Char)
    (q : Char)
    (hq : q = '"' ∨ q = backq)
    (hws3 : ∀ c ∈ ws3, goSpace c = true)
    (hws4 : ∀ c ∈ ws4, goSpace c = true) (hws4n : ws4 ≠ [])
    (hcon : ∀ c ∈ content, c ≠ q) (hconn : content ≠ [])
    (hws5 : ∀ c ∈ ws5, goSpace c = true) :
    blockCommentImport (ws3 ++ ("import".data ++
      (ws4 ++ (q :: (content ++ (q :: (ws5 ++ ('*' :: '/' :: trailing)))))))) =
      some trailing := by
  unfold blockCommentImport
  simp only [importSpan_append ws3 ws4 content (ws5 ++ ('*' :: '/' :: trailing))
    q hq hws3 hws4 hws4n hcon hconn]
  rw [spanP_append goSpace ws5 ('*' :: '/' :: trailing) hws5
    (fun c hc => by
      rw [List.head?_cons] at hc
      rw [← Option.some.inj hc]
      decide)]
  exact dropLit_append "*/".data trailing

theorem removeImportComment_decl (ws1 ident ws2 rest : List Char)
    (hws1 : ∀ c ∈ ws1, goSpace c = true)
    (hid : ∀ c ∈ ident, goWord c = true) (hidn : ident ≠ [])
    (hws2 : ∀ c ∈ ws2, goSpace c = true) (hws2n : ws2 ≠ [])
    (hrest : rest.head? = some '/') :
    spanP goSpace (ws1 ++ (ident ++ (ws2 ++ rest))) =
        (ws1, ident ++ (ws2 ++ rest)) ∧
    spanP goWord (ident ++ (ws2 ++ rest)) = (ident, ws2 ++ rest) ∧
    spanP goSpace (ws2 ++ rest) = (ws2, rest) := by
  obtain ⟨i0, is, hi⟩ := List.exists_cons_of_ne_nil hidn
  obtain ⟨w0, wls, hw⟩ := List.exists_cons_of_ne_nil hws2n
  refine ⟨?_, ?_, ?_⟩
  · exact spanP_append goSpace ws1 (ident ++ (ws2 ++ rest)) hws1
      fun c hc => by
        rw [hi, List.cons_append, List.head?_cons] at hc
        rw [← Option.some.inj hc]
        exact goWord_not_space (hid i0 (hi ▸ List.mem_cons_self i0 is))
  · exact spanP_append goWord ident (ws2 ++ rest) hid
      fun c hc => by
        rw [hw, List.cons_append, List.head?_cons] at hc
        rw [← Option.some.inj hc]
        exact goSpace_not_word (hws2 w0 (hw ▸ List.mem_cons_self w0 wls))
  · exact spanP_append goSpace ws2 rest hws2
      fun c hc => by
        rw [hrest] at hc
        rw [← Option.some.inj hc]
        decide

theorem removeImportComment_lineForm (ws1 ident ws2 r4 : List Char)
    (hws1 : ∀ c ∈ ws1, goSpace c = true) (hws1n : ws1 ≠ [])
    (hid : ∀ c ∈ ident, goWord c = true) (hidn : ident ≠ [])
    (hws2 : ∀ c ∈ ws2, goSpace c = true) (hws2n : ws2 ≠ []) :
    removeImportComment ("package".data ++
        (ws1 ++ (ident ++ (ws2 ++ ('/' :: '/' :: r4))))) =
      if lineCommentImport r4 then some ("package".data ++ ws1 ++ ident)
      else none := by
  obtain ⟨h1, h2, h3⟩ := removeImportComment_decl ws1 ident ws2
    ('/' :: '/' :: r4) hws1 hid hidn hws2 hws2n rfl
  unfold removeImportComment
  rw [dropLit_append]
  simp only [h1, h2, h3, isEmpty_false_of_ne_nil hws1n,
    isEmpty_false_of_ne_nil hidn, isEmpty_false_of_ne_nil hws2n,
    Bool.false_eq_true, if_false]

theorem removeImportComment_blockForm (ws1 ident ws2 r4 : List Char)
    (hws1 : ∀ c ∈ ws1, goSpace c = true) (hws1n : ws1 ≠ [])
    (hid : ∀ c ∈ ident, goWord c = true) (hidn : ident ≠ [])
    (hws2 : ∀ c ∈ ws2, goSpace c = true) (hws2n : ws2 ≠ []) :
    removeImportComment ("package".data ++
        (ws1 ++ (ident ++ (ws2 ++ ('/' :: '*' :: r4))))) =
      (blockCommentImport r4).map fun trailing =>
        ("package".data ++ ws1 ++ ident) ++ trailing := by
  obtain ⟨h1, h2, h3⟩ := removeImportComment_decl ws1 ident ws2
    ('/' :: '*' :: r4) hws1 hid hidn hws2 hws2n rfl
  unfold removeImportComment
  rw [dropLit_append]
  simp only [h1, h2, h3, isEmpty_false_of_ne_nil hws1n,
    isEmpty_false_of_ne_nil hidn, isEmpty_false_of_ne_nil hws2n,
    Bool.false_eq_true, if_false]

theorem readLines_single (l : List Char) (h : '\n' ∉ l) :
    readLines (l ++ ['\n']) = [l ++ ['\n']] := by
  induction l with
  | nil => simp [readLines]
  | cons c cs ih =>
    have hc : c ≠ '\n' := fun hh => h (hh ▸ List.mem_cons_self c cs)
    rw [List.cons_append, readLines, if_neg hc,
      ih fun hm => h (List.mem_cons_of_mem c hm)]

theorem processLine_concat_nl (l : List Char) :
    processLine (l ++ ['\n']) =
      match removeImportComment l with
      | some r => (true, r ++ ['\n'])
      | none => (false, l ++ ['\n']) := by
  unfold processLine
  rw [List.getLast?_concat]
  simp only [decide_eq_true_eq, if_pos rfl, List.dropLast_concat]
  cases h : removeImportComment l <;> simp [h]

theorem stripLoop_single (l : List Char) (h : '\n' ∉ l) :
    stripLoop (l ++ ['\n']) =
      match removeImportComment l with
      | some r => (true, [r ++ ['\n']])
      | none => (false, [l ++ ['\n']]) := by
  unfold stripLoop
  rw [readLines_single l h]
  simp only [List.map_cons, List.map_nil, processLine_concat_nl]
  cases hc : removeImportComment l <;> simp [hc]

/-- C6: a line made of a package clause followed by an import-annotation
comment — a line comment whose sole content is `import` plus a quoted or
backquoted path, or the analogous block comment — is rewritten to the
package clause plus (for the block form) any text after the closing `*/`,
and the file is reported as changed; a line on which `removeImportComment`
finds no such pattern is emitted unmodified and reports no change. -/
theorem removeImportComment_spec :
    (∀ ws1 ident ws2 ws3 ws4 content ws5 : List Char, ∀ q : Char,
      q = '"' ∨ q = backq →
      (∀ c ∈ ws1, goSpace c = true) → ws1 ≠ [] →
      (∀ c ∈ ident, goWord c = true) → ident ≠ [] →
      (∀ c ∈ ws2, goSpace c = true) → ws2 ≠ [] →
      (∀ c ∈ ws3, goSpace c = true) →
      (∀ c ∈ ws4, goSpace c = true) → ws4 ≠ [] →
      (∀ c ∈ content, c ≠ q) → content ≠ [] →
      (∀ c ∈ ws5, goSpace c = true) →
      removeImportComment ("package".data ++ (ws1 ++ (ident ++ (ws2 ++
        ('/' :: '/' :: (ws3 ++ ("import".data ++ (ws4 ++
          (q :: (content ++ (q :: ws5))))))))))) =
        some ("package".data ++ ws1 ++ ident)) ∧
    (∀ ws1 ident ws2 ws3 ws4 content ws5 trailing : List Char, ∀ q : Char,
      q = '"' ∨ q = backq →
      (∀ c ∈ ws1, goSpace c = true) → ws1 ≠ [] →
      (∀ c ∈ ident, goWord c = true) → ident ≠ [] →
      (∀ c ∈ ws2, goSpace c = true) → ws2 ≠ [] →
      (∀ c ∈ ws3, goSpace c = true) →
      (∀ c ∈ ws4, goSpace c = true) → ws4 ≠ [] →
      (∀ c ∈ content, c ≠ q) → content ≠ [] →
      (∀ c ∈ ws5, goSpace c = true) →
      removeImportComment ("package".data ++ (ws1 ++ (ident ++ (ws2 ++
        ('/' :: '*' :: (ws3 ++ ("import".data ++ (ws4 ++
          (q :: (content ++ (q :: (ws5 ++
            ('*' :: '/' :: trailing))))))))))))) =
        some (("package".data ++ ws1 ++ ident) ++ trailing)) ∧
    (∀ l r : List Char, '\n' ∉ l → removeImportComment l = some r →
      stripLoop (l ++ ['\n']) = (true, [r ++ ['\n']])) ∧
    (∀ l : List Char, '\n' ∉ l → removeImportComment l = none →
      stripLoop (l ++ ['\n']) = (false, [l ++ ['\n']])) := by
  refine ⟨?_, ?_, ?_, ?_⟩
  · intro ws1 ident ws2 ws3 ws4 content ws5 q hq hws1 hws1n hid hidn hws2
      hws2n hws3 hws4 hws4n hcon hconn hws5
    rw [removeImportComment_lineForm ws1 ident ws2 _ hws1 hws1n hid hidn
      hws2 hws2n]
    rw [lineCommentImport_true ws3 ws4 content ws5 q hq hws3 hws4 hws4n
      hcon hconn hws5]
    rfl
  · intro ws1 ident ws2 ws3 ws4 content ws5 trailing q hq hws1 hws1n hid
      hidn hws2 hws2n hws3 hws4 hws4n hcon hconn hws5
    rw [removeImportComment_blockForm ws1 ident ws2 _ hws1 hws1n hid hidn
      hws2 hws2n]
    rw [blockCommentImport_some ws3 ws4 content ws5 trailing q hq hws3 hws4
      hws4n hcon hconn hws5]
    rfl
  · intro l r hnl hsome
    rw [stripLoop_single l hnl, hsome]
  · intro l hnl hnone
    rw [stripLoop_single l hnl, hnone]

theorem removeImportComment_spec_witness :
    removeImportComment ("package foo // import \"example.com/foo\"").data =
      some ("package foo").data ∧
    removeImportComment
        ("package foo /* import \"example.com/foo\" */ // trailing").data =
      some ("package foo // trailing").data := by
  constructor
  · have h := removeImportComment_spec.1 [' '] "foo".data [' '] [' ']
      [' '] "example.com/foo".data [] '"' (Or.inl rfl)
      (by decide) (by decide) (by decide) (by decide) (by decide)
      (by decide) (by decide) (by decide) (by decide) (by decide)
      (by decide) (by decide)
    rw [show ("package foo // import \"example.com/foo\"").data =
      "package".data ++ ([' '] ++ ("foo".data ++ ([' '] ++
        ('/' :: '/' :: ([' '] ++ ("import".data ++ ([' '] ++
          ('"' :: ("example.com/foo".data ++ ('"' :: ([] : List Char)))))))))))
      from by decide]
    rw [h]
    decide
  · have h := removeImportComment_spec.2.1 [' '] "foo".data [' '] [' ']
      [' '] "example.com/foo".data [' '] (' ' :: '/' :: '/' :: ' ' ::
        "trailing".data) '"' (Or.inl rfl)
      (by decide) (by decide) (by decide) (by decide) (by decide)
      (by decide) (by decide) (by decide) (by decide) (by decide)
      (by decide) (by decide)
    rw [show ("package foo /* import \"example.com/foo\" */ // trailing").data =
      "package".data ++ ([' '] ++ ("foo".data ++ ([' '] ++
        ('/' :: '*' :: ([' '] ++ ("import".data ++ ([' '] ++
          ('"' :: ("example.com/foo".data ++ ('"' :: ([' '] ++
            ('*' :: '/' :: (' ' :: '/' :: '/' :: ' ' ::
              "trailing".data))))))))))))) from by decide]
    rw [h]
    decide

end Retrodep
